import Mathlib

/-!
Verification of the embedded MCP stdio client and tool bridge.

The definitions below are a shallow embedding of the TypeScript source of
the MCP client (process-backed JSON-RPC transport with two framings, a
pending-request correlation table, lifecycle/shutdown logic, and the
tool-name bridging layer).  Byte buffers are modelled as lists of
naturals, JS strings of ASCII text as lists of characters, maps and sets
as association lists with explicit membership, and the event-driven
handlers as pure state-transition functions that also return the
externally visible actions (rejections, signals, spawned processes).
Recursions over shrinking buffers are written with an explicit fuel
argument (the callers always pass at least the buffer length, which the
fuel lemmas show is enough), so every definition is executable.
-/

namespace McpModel

/-! ## Environment-variable substitution (resolveMcpEnvValue)

The source replaces every occurrence of the global regex pattern for a
placeholder (dollar, open brace, an identifier made of an ASCII letter
or underscore followed by letters, digits or underscores, close brace)
with the value of the named process-environment variable, a missing
variable giving the empty string.  We model JS strings as lists of
characters and the global regex replace as a left-to-right scan. -/

def isIdentStart (c : Char) : Bool :=
  (decide ('A' ≤ c) && decide (c ≤ 'Z')) ||
  (decide ('a' ≤ c) && decide (c ≤ 'z')) || decide (c = '_')

def isIdentChar (c : Char) : Bool :=
  isIdentStart c || (decide ('0' ≤ c) && decide (c ≤ '9'))

/-- Try to read, from the characters directly after a dollar-open-brace,
a full placeholder tail: a nonempty identifier followed by a closing
brace.  Returns the identifier and the remaining characters. -/
def takeIdent (cs : List Char) : Option (List Char × List Char) :=
  match cs with
  | [] => none
  | c :: rest =>
    if isIdentStart c then
      match rest.dropWhile isIdentChar with
      | [] => none
      | rb :: post =>
        if rb = '}' then some (c :: rest.takeWhile isIdentChar, post) else none
    else none

theorem takeIdent_shrink {cs ident post : List Char}
    (h : takeIdent cs = some (ident, post)) : post.length < cs.length := by
  match cs with
  | [] => simp [takeIdent] at h
  | c :: rest =>
    simp only [takeIdent] at h
    by_cases hs : isIdentStart c
    · simp only [hs, if_true] at h
      cases hdw : rest.dropWhile isIdentChar with
      | nil => rw [hdw] at h; simp at h
      | cons rb post2 =>
        rw [hdw] at h
        by_cases hrb : rb = '}'
        · simp only [hrb, if_true, Option.some.injEq, Prod.mk.injEq] at h
          obtain ⟨_, hpost⟩ := h
          subst hpost
          have hlen : (rest.dropWhile isIdentChar).length ≤ rest.length :=
            (List.dropWhile_sublist _).length_le
          rw [hdw] at hlen
          simp only [List.length_cons] at hlen ⊢
          omega
        · simp [hrb] at h
    · simp [hs] at h

/-- Fuel-driven model of resolveMcpEnvValue: scan the value left to
right; at each position where a complete placeholder starts, emit the
environment value of its identifier (empty when absent) and continue
after the closing brace; every other character is copied verbatim, in
particular a dollar sign not opening a complete placeholder.  Fuel at
least the length of the input (as the wrapper below passes) never runs
out. -/
def resolveEnvFuel (env : List Char → Option (List Char)) :
    Nat → List Char → List Char
  | _, [] => []
  | 0, s => s
  | fuel + 1, c :: cs =>
    if c = '$' ∧ cs.head? = some '{' then
      match takeIdent cs.tail with
      | some (ident, post) =>
        (env ident).getD [] ++ resolveEnvFuel env fuel post
      | none => c :: resolveEnvFuel env fuel cs
    else c :: resolveEnvFuel env fuel cs

/-- Model of the source resolveMcpEnvValue (String.replace with the
global placeholder regex, the replacement drawing on process.env). -/
def resolveMcpEnvValue (env : List Char → Option (List Char))
    (s : List Char) : List Char :=
  resolveEnvFuel env s.length s

/-- An identifier as described by the spec: an ASCII letter or underscore
followed by letters, digits or underscores. -/
def IsIdentifier (cs : List Char) : Prop :=
  ∃ c tl, cs = c :: tl ∧ isIdentStart c = true ∧ ∀ x ∈ tl, isIdentChar x = true

/-- The character sequence begins with a complete placeholder. -/
def StartsWithPlaceholder (cs : List Char) : Prop :=
  ∃ ident rest, IsIdentifier ident ∧ cs = '$' :: '{' :: (ident ++ '}' :: rest)

/-- Specification relation, transcribed from the spec sentence: each
placeholder occurrence is replaced by the current environment value for
its identifier (empty string when unset) and every character outside
such placeholders is preserved verbatim. -/
inductive EnvSubst (env : List Char → Option (List Char)) :
    List Char → List Char → Prop
  | nil : EnvSubst env [] []
  | placeholder (ident rest out) (hid : IsIdentifier ident)
      (htail : EnvSubst env rest out) :
      EnvSubst env ('$' :: '{' :: (ident ++ '}' :: rest))
        ((env ident).getD [] ++ out)
  | literal (c rest out) (hnp : ¬ StartsWithPlaceholder (c :: rest))
      (htail : EnvSubst env rest out) :
      EnvSubst env (c :: rest) (c :: out)

theorem takeWhile_append_stop {p : Char → Bool} (as : List Char) {b : Char}
    (bs : List Char) (ha : ∀ x ∈ as, p x = true) (hb : p b = false) :
    (as ++ b :: bs).takeWhile p = as := by
  induction as with
  | nil => simp [List.takeWhile_cons, hb]
  | cons a tl ih =>
    have hpa : p a = true := ha a (List.mem_cons_self a tl)
    simp only [List.cons_append, List.takeWhile_cons, hpa, if_true,
      List.cons.injEq, true_and]
    exact ih (fun x hx => ha x (List.mem_cons_of_mem a hx))

theorem dropWhile_append_stop {p : Char → Bool} (as : List Char) {b : Char}
    (bs : List Char) (ha : ∀ x ∈ as, p x = true) (hb : p b = false) :
    (as ++ b :: bs).dropWhile p = b :: bs := by
  induction as with
  | nil => simp [List.dropWhile_cons, hb]
  | cons a tl ih =>
    have hpa : p a = true := ha a (List.mem_cons_self a tl)
    simp only [List.cons_append, List.dropWhile_cons, hpa, if_true]
    exact ih (fun x hx => ha x (List.mem_cons_of_mem a hx))

theorem takeIdent_sound {cs ident post : List Char}
    (h : takeIdent cs = some (ident, post)) :
    IsIdentifier ident ∧ cs = ident ++ '}' :: post := by
  match cs with
  | [] => simp [takeIdent] at h
  | c :: rest =>
    simp only [takeIdent] at h
    by_cases hs : isIdentStart c
    · simp only [hs, if_true] at h
      cases hdw : rest.dropWhile isIdentChar with
      | nil => rw [hdw] at h; simp at h
      | cons rb post2 =>
        rw [hdw] at h
        by_cases hrb : rb = '}'
        · simp only [hrb, if_true, Option.some.injEq, Prod.mk.injEq] at h
          obtain ⟨hident, hpost⟩ := h
          subst hpost
          constructor
          · refine ⟨c, rest.takeWhile isIdentChar, hident.symm, hs, ?_⟩
            intro x hx
            exact List.mem_takeWhile_imp hx
          · have hsplit : rest.takeWhile isIdentChar ++
                rest.dropWhile isIdentChar = rest :=
              List.takeWhile_append_dropWhile isIdentChar rest
            rw [hdw, hrb] at hsplit
            rw [← hident]
            simp only [List.cons_append, List.cons.injEq, true_and]
            exact hsplit.symm
        · simp [hrb] at h
    · simp [hs] at h

theorem takeIdent_complete {ident rest : List Char} (hid : IsIdentifier ident) :
    takeIdent (ident ++ '}' :: rest) = some (ident, rest) := by
  obtain ⟨c, tl, hcs, hstart, hchars⟩ := hid
  subst hcs
  simp only [takeIdent, List.cons_append, hstart, if_true]
  have hbrace : isIdentChar '}' = false := by decide
  rw [dropWhile_append_stop tl rest hchars hbrace,
    takeWhile_append_stop tl rest hchars hbrace]
  simp

theorem not_startsWithPlaceholder_of_takeIdent_none {cs : List Char}
    (h : takeIdent cs = none) : ¬ StartsWithPlaceholder ('$' :: '{' :: cs) := by
  rintro ⟨ident, rest, hid, heq⟩
  simp only [List.cons.injEq, true_and] at heq
  have hti := @takeIdent_complete ident rest hid
  rw [← heq, h] at hti
  exact Option.noConfusion hti

theorem not_startsWithPlaceholder_shape {c : Char} {cs : List Char}
    (h : ¬ (c = '$' ∧ cs.head? = some '{')) :
    ¬ StartsWithPlaceholder (c :: cs) := by
  rintro ⟨ident, rest, _, heq⟩
  simp only [List.cons.injEq] at heq
  exact h ⟨heq.1, by rw [heq.2]; simp⟩

theorem resolveEnvFuel_spec (env : List Char → Option (List Char)) :
    ∀ (fuel : Nat) (s : List Char), s.length ≤ fuel →
      EnvSubst env s (resolveEnvFuel env fuel s) := by
  intro fuel
  induction fuel with
  | zero =>
    intro s hs
    have : s = [] := List.eq_nil_of_length_eq_zero (Nat.le_zero.mp hs)
    subst this
    exact EnvSubst.nil
  | succ n ih =>
    intro s hs
    rcases s with _ | ⟨c, cs⟩
    · exact EnvSubst.nil
    by_cases hpl : c = '$' ∧ cs.head? = some '{'
    · obtain ⟨hc, hcs⟩ := hpl
      rcases cs with _ | ⟨c2, cs2⟩
      · simp at hcs
      simp only [List.head?_cons, Option.some.injEq] at hcs
      subst hc; subst hcs
      simp only [resolveEnvFuel, List.head?_cons, List.tail_cons, and_self,
        if_true]
      cases hti : takeIdent cs2 with
      | some p =>
        obtain ⟨ident, post⟩ := p
        simp only []
        obtain ⟨hid, hdec⟩ := takeIdent_sound hti
        have hshrink := takeIdent_shrink hti
        have hrec : EnvSubst env post (resolveEnvFuel env n post) := by
          apply ih
          simp only [List.length_cons] at hs
          omega
        have hout := EnvSubst.placeholder ident post
          (resolveEnvFuel env n post) hid hrec
        rw [← hdec] at hout
        exact hout
      | none =>
        simp only []
        have h1 : ¬ StartsWithPlaceholder ('$' :: '{' :: cs2) :=
          not_startsWithPlaceholder_of_takeIdent_none hti
        have hrec : EnvSubst env ('{' :: cs2)
            (resolveEnvFuel env n ('{' :: cs2)) := by
          apply ih
          simp only [List.length_cons] at hs ⊢
          omega
        exact EnvSubst.literal '$' ('{' :: cs2) _ h1 hrec
    · have hstep : resolveEnvFuel env (n + 1) (c :: cs) =
          c :: resolveEnvFuel env n cs := by
        simp only [resolveEnvFuel, hpl, if_false]
      rw [hstep]
      have h1 : ¬ StartsWithPlaceholder (c :: cs) :=
        not_startsWithPlaceholder_shape hpl
      have hrec : EnvSubst env cs (resolveEnvFuel env n cs) := by
        apply ih
        simp only [List.length_cons] at hs
        omega
      exact EnvSubst.literal c cs _ h1 hrec

/-- C6.  Every environment-value string is rewritten exactly as the spec
describes: each placeholder occurrence becomes the process-environment
value of its identifier (the empty string when the variable is unset)
and all text outside placeholders is preserved verbatim; formally, the
source scanner realises the specification relation EnvSubst. -/
theorem c6_env_substitution (env : List Char → Option (List Char))
    (s : List Char) : EnvSubst env s (resolveMcpEnvValue env s) :=
  resolveEnvFuel_spec env s.length s le_rfl

/-! ## Correlation engine state (pending table, process-failure drain,
timeouts, inbound message dispatch)

One McpStdioClient owns a pending-request table keyed by the numeric
request id.  We model the table as an association list (the source Map
has unique keys; deletion is modelled as filtering the key out), and the
event handlers as pure functions returning the new state together with
the externally visible rejections/resolutions. -/

structure ClientState (α : Type) where
  pending : List (Nat × α)
  nextRequestId : Nat
  closed : Bool

/-- failAllPending: reject every pending entry with the failure message
prefixed by its id, then clear the table; an empty table returns
early and rejects nothing. -/
def failAllPending {α : Type} (msg : String) (st : ClientState α) :
    ClientState α × List (Nat × String) :=
  if st.pending.isEmpty then (st, [])
  else
    ({ st with pending := [] },
     st.pending.map (fun pr => (pr.1, "[id " ++ toString pr.1 ++ "] " ++ msg)))

/-- The exit-context suffix built by the exit handler: a numeric exit
code wins, otherwise a signal name, otherwise an unknown exit. -/
def exitSuffix (code : Option Int) (signal : Option String) : String :=
  match code with
  | some c => "exit " ++ toString c
  | none =>
    match signal with
    | some s => "signal " ++ s
    | none => "unknown exit"

def processTerminatedMessage (serverName : String) (code : Option Int)
    (signal : Option String) : String :=
  "[" ++ serverName ++ "] process terminated (" ++ exitSuffix code signal ++ ")"

def processErrorMessage (serverName emsg : String) : String :=
  "[" ++ serverName ++ "] process error: " ++ emsg

/-- The exit event handler: mark the client closed, then drain the
pending table with a process-terminated error carrying the exit
context. -/
def onProcessExit {α : Type} (serverName : String) (code : Option Int)
    (signal : Option String) (st : ClientState α) :
    ClientState α × List (Nat × String) :=
  failAllPending (processTerminatedMessage serverName code signal)
    { st with closed := true }

/-- The process error event handler: drain the pending table with a
process-error message (the closed flag is untouched, as in the source,
where only the exit handler sets it). -/
def onProcessError {α : Type} (serverName emsg : String)
    (st : ClientState α) : ClientState α × List (Nat × String) :=
  failAllPending (processErrorMessage serverName emsg) st

/-- C1.  A process error event or process exit rejects every one of the
pending entries with the transport-failure message (the exit path
carrying exit code/signal context), leaves the pending table empty, and
a second error or exit event afterwards rejects nothing. -/
theorem c1_process_failure_drains_pending (α : Type) (st : ClientState α)
    (serverName emsg : String) (code : Option Int) (signal : Option String) :
    (onProcessExit serverName code signal st).2 =
      st.pending.map (fun pr => (pr.1, "[id " ++ toString pr.1 ++ "] " ++
        processTerminatedMessage serverName code signal))
    ∧ (onProcessExit serverName code signal st).1.pending = []
    ∧ (onProcessExit serverName code signal st).1.closed = true
    ∧ (onProcessExit serverName code signal
        (onProcessExit serverName code signal st).1).2 = []
    ∧ (onProcessError serverName emsg
        (onProcessExit serverName code signal st).1).2 = []
    ∧ (onProcessError serverName emsg st).2 =
      st.pending.map (fun pr => (pr.1, "[id " ++ toString pr.1 ++ "] " ++
        processErrorMessage serverName emsg))
    ∧ (onProcessError serverName emsg st).1.pending = st.pending.filter
        (fun _ => false)
    ∧ (onProcessError serverName emsg
        (onProcessError serverName emsg st).1).2 = [] := by
  cases hp : st.pending with
  | nil =>
    simp [onProcessExit, onProcessError, failAllPending, hp]
  | cons hd tl =>
    simp [onProcessExit, onProcessError, failAllPending, hp]

/-- Timeout rejection message: names the method. -/
def timeoutMessage (serverName method : String) : String :=
  "[" ++ serverName ++ "] request timeout: " ++ method

/-- The per-request timeout handler: delete the entry from the pending
table and reject with the timeout message. -/
def onRequestTimeout {α : Type} (serverName method : String) (id : Nat)
    (st : ClientState α) : ClientState α × String :=
  ({ st with pending := st.pending.filter (fun pr => pr.1 != id) },
   timeoutMessage serverName method)

def lookupPending {α : Type} (st : ClientState α) (id : Nat) : Option α :=
  st.pending.lookup id

theorem lookup_filter_ne_self {α : Type} (l : List (Nat × α)) (id : Nat) :
    (l.filter (fun pr => pr.1 != id)).lookup id = none := by
  induction l with
  | nil => rfl
  | cons hd tl ih =>
    obtain ⟨k, v⟩ := hd
    by_cases h : k = id
    · subst h
      simp only [List.filter_cons, bne_self_eq_false, Bool.false_eq_true,
        if_false]
      exact ih
    · have hb : ((k, v).1 != id) = true := by simp [h]
      rw [List.filter_cons, hb]
      have hkf : (id == k) = false := by
        simp only [beq_eq_false_iff_ne, ne_eq]
        exact fun he => h he.symm
      simp only [if_true, List.lookup, hkf]
      exact ih

theorem lookup_filter_ne_other {α : Type} (l : List (Nat × α)) (id j : Nat)
    (hne : j ≠ id) :
    (l.filter (fun pr => pr.1 != id)).lookup j = l.lookup j := by
  induction l with
  | nil => rfl
  | cons hd tl ih =>
    obtain ⟨k, v⟩ := hd
    by_cases h : k = id
    · subst h
      simp only [List.filter_cons, bne_self_eq_false, Bool.false_eq_true,
        if_false]
      have hjk : (j == k) = false := by simp [hne]
      simp only [List.lookup, hjk]
      exact ih
    · have hb : ((k, v).1 != id) = true := by simp [h]
      rw [List.filter_cons, hb]
      by_cases hkj : j = k
      · have hb2 : (j == k) = true := by simp [hkj]
        simp only [if_true, List.lookup, hb2]
      · have hb2 : (j == k) = false := by simp [hkj]
        simp only [if_true, List.lookup, hb2]
        exact ih

/-- C4.  When a request's timeout fires, the entry is removed from the
pending table (its id no longer resolves there, while other ids are
untouched) and the request is rejected with the timeout error naming the
method. -/
theorem c4_timeout_removes_entry_and_names_method (α : Type)
    (st : ClientState α) (serverName method : String) (id : Nat) :
    lookupPending (onRequestTimeout serverName method id st).1 id = none
    ∧ (∀ j, j ≠ id →
        lookupPending (onRequestTimeout serverName method id st).1 j =
          lookupPending st j)
    ∧ (onRequestTimeout serverName method id st).2 =
        timeoutMessage serverName method
    ∧ ∃ pre, (onRequestTimeout serverName method id st).2 = pre ++ method := by
  refine ⟨?_, ?_, rfl, ?_⟩
  · exact lookup_filter_ne_self st.pending id
  · intro j hj
    exact lookup_filter_ne_other st.pending id j hj
  · exact ⟨"[" ++ serverName ++ "] request timeout: ", rfl⟩

/-- Closed witness for C4 at a concrete table: id 7 is removed and
rejected with a message naming the method, id 3 is untouched. -/
theorem c4_witness :
    lookupPending
      (onRequestTimeout "srv" "tools/call" 7
        (ClientState.mk [(7, 0), (3, 1)] 8 false)).1 7 = none
    ∧ lookupPending
      (onRequestTimeout "srv" "tools/call" 7
        (ClientState.mk [(7, 0), (3, 1)] 8 false)).1 3 = some 1
    ∧ (onRequestTimeout "srv" "tools/call" 7
        (ClientState.mk [(7, 0), (3, 1)] 8 false)).2 =
      "[srv] request timeout: tools/call" := by
  have h := c4_timeout_removes_entry_and_names_method Nat
    (ClientState.mk [(7, 0), (3, 1)] 8 false) "srv" "tools/call" 7
  refine ⟨h.1, ?_, ?_⟩
  · have h2 := h.2.1 3 (by decide)
    rw [h2]
    rfl
  · rw [h.2.2.1]
    rfl

/-! ## Inbound JSON-RPC message dispatch (handleJsonRpcMessage) -/

/-- A small JSON value model (numbers as integers: the request ids the
client assigns are integers, and only the numeric class of an inbound id
matters to the handler). -/
inductive Json where
  | null : Json
  | bool (b : Bool) : Json
  | num (n : Int) : Json
  | str (s : String) : Json
  | arr (elems : List Json) : Json
  | obj (fields : List (String × Json)) : Json

/-- Property access on a parsed JSON message (parsed objects have unique
keys, so first-match lookup is exact). -/
def getField (j : Json) (name : String) : Option Json :=
  match j with
  | Json.obj fields => fields.lookup name
  | _ => none

def findByIntId {α : Type} (st : ClientState α) (i : Int) :
    Option (Nat × α) :=
  st.pending.find? (fun pr => (pr.1 : Int) == i)

/-- The action taken on the matched pending entry. -/
inductive RpcAction where
  | resolved (result : Option Json) : RpcAction
  | rejected (msg : String) : RpcAction

def remoteErrSuffix (codeField : Option Json) : String :=
  match codeField with
  | some (Json.num c) => " (" ++ toString c ++ ")"
  | _ => ""

def remoteErrText (messageField : Option Json) : String :=
  match messageField with
  | some (Json.str s) => s
  | _ => "Unknown MCP error"

/-- handleJsonRpcMessage: ignore messages without a numeric id or whose
id has no pending entry; otherwise remove the entry, clear its timer and
abort listener, and resolve with the result field or reject with the
remote error text and optional numeric code. -/
def handleJsonRpcMessage {α : Type} (serverName : String)
    (st : ClientState α) (msg : Json) :
    ClientState α × Option (Nat × RpcAction) :=
  match getField msg "id" with
  | some (Json.num i) =>
    match findByIntId st i with
    | none => (st, none)
    | some pr =>
      let st2 : ClientState α :=
        { st with pending := st.pending.filter (fun q => (q.1 : Int) != i) }
      match getField msg "error" with
      | some (Json.obj errFields) =>
        (st2, some (pr.1, RpcAction.rejected ("[" ++ serverName ++ "] " ++
          remoteErrText (errFields.lookup "message") ++
          remoteErrSuffix (errFields.lookup "code"))))
      | _ => (st2, some (pr.1, RpcAction.resolved (getField msg "result")))
  | _ => (st, none)

/-- Does the message's id field single out a live pending entry?  False
when the id is absent, not a number, or matches no pending id. -/
def matchesPending {α : Type} (st : ClientState α)
    (idField : Option Json) : Bool :=
  match idField with
  | some (Json.num i) => (findByIntId st i).isSome
  | _ => false

/-- C10.  An inbound message whose id is absent, not a number, or not a
key of the pending table leaves the state (pending table, timers,
requests) unchanged and resolves or rejects nothing. -/
theorem c10_unmatched_message_is_noop (α : Type) (serverName : String)
    (st : ClientState α) (msg : Json)
    (h : matchesPending st (getField msg "id") = false) :
    handleJsonRpcMessage serverName st msg = (st, none) := by
  unfold handleJsonRpcMessage
  split
  · rename_i i heq
    split
    · rfl
    · rename_i pr hf
      rw [heq] at h
      simp [matchesPending, hf] at h
  · rfl

/-- Closed witness for C10: a notification (no id), a string-id response
and a numeric id absent from the table all leave a nonempty pending
table untouched. -/
theorem c10_witness :
    handleJsonRpcMessage "srv" (ClientState.mk [(1, 0)] 2 false)
      (Json.obj [("jsonrpc", Json.str "2.0"), ("method", Json.str "ping")]) =
      (ClientState.mk [(1, 0)] 2 false, none)
    ∧ handleJsonRpcMessage "srv" (ClientState.mk [(1, 0)] 2 false)
      (Json.obj [("id", Json.str "1"), ("result", Json.null)]) =
      (ClientState.mk [(1, 0)] 2 false, none)
    ∧ handleJsonRpcMessage "srv" (ClientState.mk [(1, 0)] 2 false)
      (Json.obj [("id", Json.num 2), ("result", Json.null)]) =
      (ClientState.mk [(1, 0)] 2 false, none) :=
  ⟨c10_unmatched_message_is_noop Nat "srv" (ClientState.mk [(1, 0)] 2 false)
      (Json.obj [("jsonrpc", Json.str "2.0"), ("method", Json.str "ping")]) rfl,
   c10_unmatched_message_is_noop Nat "srv" (ClientState.mk [(1, 0)] 2 false)
      (Json.obj [("id", Json.str "1"), ("result", Json.null)]) rfl,
   c10_unmatched_message_is_noop Nat "srv" (ClientState.mk [(1, 0)] 2 false)
      (Json.obj [("id", Json.num 2), ("result", Json.null)]) rfl⟩

/-! ## Incremental header-delimited frame parser
(handleStdoutChunk / drainHeaderDelimitedMessages)

The source accumulates stdout bytes in a buffer; under header framing it
repeatedly looks for the first CRLFCRLF, decodes the bytes before it to
text (UTF-8, invalid sequences replaced), runs the case-insensitive
Content-Length regex over that text, skips the block when no field is
recognizable or when the parsed length fails the finiteness guard,
waits when the body is not yet complete, and otherwise emits the body
bytes and continues after them.  We model bytes as naturals and emit
the raw body frames (the subsequent JSON parse is a pure function of
the body bytes, so equal frame lists give equal decoded messages).  The
header text is modelled as the decoded code-point sequence, the regex
whitespace gap with the full JS whitespace class, and Number.parseInt
of the digit capture with its exact semantics: the mathematical value
rounded to an IEEE double, overflowing to infinity — which the
source's !Number.isFinite guard turns into a block skip (the
contentLength < 0 arm of that guard cannot fire, since a digit capture
has no sign).  Buffer offsets are exact naturals: in the runtime every
offset is an exact double (a Node buffer is far shorter than 2^53
bytes), the parsed length being the one quantity that can escape that
range, and it is modelled with its rounding. -/

def strBytes (s : String) : List Nat :=
  s.toList.map Char.toNat

/-- Does the buffer begin with CRLF CRLF? -/
def isSepAt (l : List Nat) : Bool :=
  l.take 4 == [13, 10, 13, 10]

/-- Index of the first CRLF CRLF in the buffer (Buffer.indexOf). -/
def findSep : List Nat → Option Nat
  | [] => none
  | b :: rest =>
    if isSepAt (b :: rest) then some 0
    else (findSep rest).map (fun k => k + 1)

/-- A UTF-8 continuation byte. -/
def isCont (b : Nat) : Bool :=
  decide (128 ≤ b) && decide (b ≤ 191)

/-- Fuel-driven UTF-8 decoding of a byte list to code points with the
WHATWG replacement behaviour used by Buffer.toString: a valid sequence
yields its code point; on an invalid lead byte one replacement
character (65533) is emitted and that byte consumed; on a continuation
byte failing its range check one replacement character is emitted and
decoding resumes at that byte; a sequence truncated by the end of the
slice yields one replacement character.  Every step consumes at least
one byte, so fuel at least the byte count (as the wrapper passes) never
runs out. -/
def utf8DecodeF : Nat → List Nat → List Nat
  | 0, _ => []
  | _ + 1, [] => []
  | fuel + 1, b1 :: rest =>
    if b1 < 128 then b1 :: utf8DecodeF fuel rest
    else if 194 ≤ b1 ∧ b1 ≤ 223 then
      match rest with
      | [] => [65533]
      | b2 :: rest2 =>
        if isCont b2 then
          ((b1 - 192) * 64 + (b2 - 128)) :: utf8DecodeF fuel rest2
        else 65533 :: utf8DecodeF fuel rest
    else if 224 ≤ b1 ∧ b1 ≤ 239 then
      match rest with
      | [] => [65533]
      | b2 :: rest2 =>
        if (if b1 = 224 then 160 else 128) ≤ b2 ∧
            b2 ≤ (if b1 = 237 then 159 else 191) then
          match rest2 with
          | [] => [65533]
          | b3 :: rest3 =>
            if isCont b3 then
              ((b1 - 224) * 4096 + (b2 - 128) * 64 + (b3 - 128)) ::
                utf8DecodeF fuel rest3
            else 65533 :: utf8DecodeF fuel (b3 :: rest3)
        else 65533 :: utf8DecodeF fuel (b2 :: rest2)
    else if 240 ≤ b1 ∧ b1 ≤ 244 then
      match rest with
      | [] => [65533]
      | b2 :: rest2 =>
        if (if b1 = 240 then 144 else 128) ≤ b2 ∧
            b2 ≤ (if b1 = 244 then 143 else 191) then
          match rest2 with
          | [] => [65533]
          | b3 :: rest3 =>
            if isCont b3 then
              match rest3 with
              | [] => [65533]
              | b4 :: rest4 =>
                if isCont b4 then
                  ((b1 - 240) * 262144 + (b2 - 128) * 4096 +
                    (b3 - 128) * 64 + (b4 - 128)) :: utf8DecodeF fuel rest4
                else 65533 :: utf8DecodeF fuel (b4 :: rest4)
            else 65533 :: utf8DecodeF fuel (b3 :: rest3)
        else 65533 :: utf8DecodeF fuel (b2 :: rest2)
    else 65533 :: utf8DecodeF fuel rest

/-- Buffer.toString("utf8") on a byte slice, as code points. -/
def utf8Decode (bs : List Nat) : List Nat :=
  utf8DecodeF bs.length bs

/-- The full JS regex whitespace class (backslash-s): tab through
carriage return, space, and the non-ASCII whitespace code points
(no-break space, ogham space mark, the U+2000 to U+200A range, line and
paragraph separators, narrow no-break space, medium mathematical space,
ideographic space, and the byte-order mark). -/
def isJsWhitespace (c : Nat) : Bool :=
  c == 9 || c == 10 || c == 11 || c == 12 || c == 13 || c == 32 ||
  c == 160 || c == 5760 || (decide (8192 ≤ c) && decide (c ≤ 8202)) ||
  c == 8232 || c == 8233 || c == 8239 || c == 8287 || c == 12288 ||
  c == 65279

def isDigitByte (b : Nat) : Bool :=
  decide (48 ≤ b) && decide (b ≤ 57)

/-- Lowercase an ASCII code point; the i flag of the source regex (a
regex without the u flag) folds case for ASCII only, since
canonicalization never maps a non-ASCII character onto an ASCII one. -/
def lowerByte (b : Nat) : Nat :=
  if 65 ≤ b ∧ b ≤ 90 then b + 32 else b

def clLiteral : List Nat :=
  strBytes "content-length:"

def digitsToNat (ds : List Nat) : Nat :=
  ds.foldl (fun acc d => acc * 10 + (d - 48)) 0

/-- Round a natural to the nearest IEEE double significand (ties to
even); exact below 2^53.  Used for the value Number.parseInt returns on
a finite digit capture. -/
def roundToDouble (v : Nat) : Nat :=
  if v < 2 ^ 53 then v
  else
    let e := Nat.log2 v - 52
    let q := v / 2 ^ e
    let r := v % 2 ^ e
    if 2 ^ (e - 1) < r ∨ (r = 2 ^ (e - 1) ∧ q % 2 = 1) then (q + 1) * 2 ^ e
    else q * 2 ^ e

/-- Number.parseInt of a nonempty decimal digit capture: the exact
mathematical value rounded to a double, where values at or above
2^1024 - 2^970 round to positive infinity (none).  The source skips the
header block exactly in the none case via its !Number.isFinite guard;
its contentLength < 0 arm cannot fire, a digit capture being
unsigned. -/
def jsParseIntDigits (ds : List Nat) : Option Nat :=
  if digitsToNat ds < 2 ^ 1024 - 2 ^ 970 then some (roundToDouble (digitsToNat ds))
  else none

/-- Try to match the Content-Length regex at the start of the decoded
header text: the literal name (ASCII case-insensitive), a maximal run
of JS whitespace, then at least one decimal digit; returns the maximal
digit-run capture.  (The regex cannot succeed here by backtracking the
whitespace run, whitespace and digits being disjoint.) -/
def matchContentLengthAt (cs : List Nat) : Option (List Nat) :=
  if (cs.take 15).map lowerByte = clLiteral then
    let digits := ((cs.drop 15).dropWhile isJsWhitespace).takeWhile isDigitByte
    if digits.isEmpty then none else some digits
  else none

/-- The leftmost match of the Content-Length regex over the decoded
header text, returning its digit capture.  String.match commits to this
first match: a capture that later fails the finiteness guard does not
cause a search for another match. -/
def findContentLengthMatch : List Nat → Option (List Nat)
  | [] => none
  | c :: rest =>
    match matchContentLengthAt (c :: rest) with
    | some ds => some ds
    | none => findContentLengthMatch rest

/-- The parsed Content-Length of a header block, none when the block is
skipped: no regex match over the decoded header text, or a capture
whose parsed value is not finite. -/
def findContentLength (headerBytes : List Nat) : Option Nat :=
  match findContentLengthMatch (utf8Decode headerBytes) with
  | none => none
  | some ds => jsParseIntDigits ds

/-- Fuel-driven drain loop: each iteration either stops (no complete
header, or incomplete body), skips a header block without a
Content-Length, or emits one complete body frame; fuel that is at least
the buffer length (as the wrapper passes) never runs out, since every
iteration consumes at least four bytes. -/
def drainF (fuel : Nat) (buf : List Nat) : List (List Nat) × List Nat :=
  match fuel with
  | 0 => ([], buf)
  | fuel + 1 =>
    match findSep buf with
    | none => ([], buf)
    | some i =>
      match findContentLength (buf.take i) with
      | none => drainF fuel (buf.drop (i + 4))
      | some n =>
        if i + 4 + n ≤ buf.length then
          let r := drainF fuel (buf.drop (i + 4 + n))
          ((buf.drop (i + 4)).take n :: r.1, r.2)
        else ([], buf)

/-- Model of drainHeaderDelimitedMessages: extract every complete frame
from the buffer, returning the emitted bodies in order and the residual
buffer. -/
def drainHeaderDelimitedMessages (buf : List Nat) :
    List (List Nat) × List Nat :=
  drainF buf.length buf

/-- Model of handleStdoutChunk under header framing: append the chunk
to the buffer and drain, accumulating the emitted messages. -/
def handleStdoutChunk (acc : List (List Nat) × List Nat)
    (chunk : List Nat) : List (List Nat) × List Nat :=
  let r := drainHeaderDelimitedMessages (acc.2 ++ chunk)
  (acc.1 ++ r.1, r.2)

/-- Feeding a chunk sequence to a fresh transport. -/
def processChunks (chunks : List (List Nat)) : List (List Nat) × List Nat :=
  chunks.foldl handleStdoutChunk ([], [])

theorem isSepAt_shape {l : List Nat} (h : isSepAt l = true) :
    ∃ tl, l = 13 :: 10 :: 13 :: 10 :: tl := by
  unfold isSepAt at h
  have htake : l.take 4 = [13, 10, 13, 10] := by
    exact eq_of_beq h
  refine ⟨l.drop 4, ?_⟩
  calc l = l.take 4 ++ l.drop 4 := (List.take_append_drop 4 l).symm
    _ = 13 :: 10 :: 13 :: 10 :: l.drop 4 := by rw [htake]; rfl

theorem isSepAt_length {l : List Nat} (h : isSepAt l = true) : 4 ≤ l.length := by
  obtain ⟨tl, rfl⟩ := isSepAt_shape h
  simp

theorem isSepAt_append {l : List Nat} (c : List Nat) (h4 : 4 ≤ l.length) :
    isSepAt (l ++ c) = isSepAt l := by
  unfold isSepAt
  rw [List.take_append_of_le_length h4]

theorem findSep_cons (b : Nat) (rest : List Nat) :
    findSep (b :: rest) =
      if isSepAt (b :: rest) then some 0
      else (findSep rest).map (fun k => k + 1) := rfl

theorem findSep_some_le {buf : List Nat} {i : Nat}
    (h : findSep buf = some i) : i + 4 ≤ buf.length := by
  induction buf generalizing i with
  | nil => exact Option.noConfusion ((rfl : findSep [] = none) ▸ h)
  | cons b rest ih =>
    rw [findSep_cons] at h
    by_cases hsep : isSepAt (b :: rest)
    · rw [if_pos hsep] at h
      obtain rfl : i = 0 := by simpa using h.symm
      simpa using isSepAt_length hsep
    · rw [if_neg hsep] at h
      cases hrec : findSep rest with
      | none => rw [hrec] at h; exact Option.noConfusion h
      | some j =>
        rw [hrec] at h
        have h2 : some (j + 1) = some i := h
        obtain rfl : j + 1 = i := Option.some.inj h2
        have := ih hrec
        simp only [List.length_cons]
        omega

theorem findSep_append {buf c : List Nat} {i : Nat}
    (h : findSep buf = some i) : findSep (buf ++ c) = some i := by
  induction buf generalizing i with
  | nil => exact Option.noConfusion ((rfl : findSep [] = none) ▸ h)
  | cons b rest ih =>
    rw [findSep_cons] at h
    rw [List.cons_append, findSep_cons]
    by_cases hsep : isSepAt (b :: rest)
    · rw [if_pos hsep] at h
      obtain rfl : i = 0 := by simpa using h.symm
      have h4 := isSepAt_length hsep
      rw [← List.cons_append, isSepAt_append c h4, if_pos hsep]
    · rw [if_neg hsep] at h
      cases hrec : findSep rest with
      | none => rw [hrec] at h; exact Option.noConfusion h
      | some j =>
        rw [hrec] at h
        have h2 : some (j + 1) = some i := h
        obtain rfl : j + 1 = i := Option.some.inj h2
        have hlen : 4 ≤ (b :: rest).length := by
          have := findSep_some_le hrec
          simp only [List.length_cons]
          omega
        rw [← List.cons_append, isSepAt_append c hlen, if_neg hsep, ih hrec]
        rfl

theorem drainF_succ_nosep {buf : List Nat} (m : Nat)
    (h : findSep buf = none) : drainF (m + 1) buf = ([], buf) := by
  simp [drainF, h]

theorem drainF_succ_skip {buf : List Nat} {i : Nat} (m : Nat)
    (hi : findSep buf = some i)
    (hn : findContentLength (buf.take i) = none) :
    drainF (m + 1) buf = drainF m (buf.drop (i + 4)) := by
  simp [drainF, hi, hn]

theorem drainF_succ_complete {buf : List Nat} {i n : Nat} (m : Nat)
    (hi : findSep buf = some i)
    (hn : findContentLength (buf.take i) = some n)
    (hc : i + 4 + n ≤ buf.length) :
    drainF (m + 1) buf =
      ((buf.drop (i + 4)).take n :: (drainF m (buf.drop (i + 4 + n))).1,
       (drainF m (buf.drop (i + 4 + n))).2) := by
  simp [drainF, hi, hn, hc]

theorem drainF_succ_incomplete {buf : List Nat} {i n : Nat} (m : Nat)
    (hi : findSep buf = some i)
    (hn : findContentLength (buf.take i) = some n)
    (hc : ¬ i + 4 + n ≤ buf.length) :
    drainF (m + 1) buf = ([], buf) := by
  simp [drainF, hi, hn, hc]

theorem drainF_congr : ∀ (f1 f2 : Nat) (buf : List Nat),
    buf.length ≤ f1 → buf.length ≤ f2 → drainF f1 buf = drainF f2 buf := by
  intro f1
  induction f1 with
  | zero =>
    intro f2 buf h1 h2
    have : buf = [] := List.eq_nil_of_length_eq_zero (Nat.le_zero.mp h1)
    subst this
    cases f2 with
    | zero => rfl
    | succ k => rw [drainF_succ_nosep k (by rfl)]; rfl
  | succ n ih =>
    intro f2 buf h1 h2
    cases f2 with
    | zero =>
      have : buf = [] := List.eq_nil_of_length_eq_zero (Nat.le_zero.mp h2)
      subst this
      rw [drainF_succ_nosep n (by rfl)]
      rfl
    | succ m =>
      cases hsep : findSep buf with
      | none => rw [drainF_succ_nosep n hsep, drainF_succ_nosep m hsep]
      | some i =>
        have hle := findSep_some_le hsep
        cases hcl : findContentLength (buf.take i) with
        | none =>
          rw [drainF_succ_skip n hsep hcl, drainF_succ_skip m hsep hcl]
          apply ih
          · rw [List.length_drop]; omega
          · rw [List.length_drop]; omega
        | some k =>
          by_cases hc : i + 4 + k ≤ buf.length
          · rw [drainF_succ_complete n hsep hcl hc,
              drainF_succ_complete m hsep hcl hc]
            have hrec : drainF n (buf.drop (i + 4 + k)) =
                drainF m (buf.drop (i + 4 + k)) := by
              apply ih
              · rw [List.length_drop]; omega
              · rw [List.length_drop]; omega
            rw [hrec]
          · rw [drainF_succ_incomplete n hsep hcl hc,
              drainF_succ_incomplete m hsep hcl hc]

theorem drain_nosep {buf : List Nat} (h : findSep buf = none) :
    drainHeaderDelimitedMessages buf = ([], buf) := by
  cases buf with
  | nil => rfl
  | cons b bs =>
    unfold drainHeaderDelimitedMessages
    simp only [List.length_cons]
    rw [drainF_succ_nosep bs.length h]

theorem drain_skip {buf : List Nat} {i : Nat} (hi : findSep buf = some i)
    (hn : findContentLength (buf.take i) = none) :
    drainHeaderDelimitedMessages buf =
      drainHeaderDelimitedMessages (buf.drop (i + 4)) := by
  have hle := findSep_some_le hi
  cases buf with
  | nil => exact Option.noConfusion ((rfl : findSep [] = none) ▸ hi)
  | cons b bs =>
    unfold drainHeaderDelimitedMessages
    simp only [List.length_cons]
    rw [drainF_succ_skip bs.length hi hn]
    apply drainF_congr
    · rw [List.length_drop]
      simp only [List.length_cons] at hle ⊢
      omega
    · rfl

theorem drain_complete {buf : List Nat} {i n : Nat}
    (hi : findSep buf = some i) (hn : findContentLength (buf.take i) = some n)
    (hc : i + 4 + n ≤ buf.length) :
    drainHeaderDelimitedMessages buf =
      ((buf.drop (i + 4)).take n ::
        (drainHeaderDelimitedMessages (buf.drop (i + 4 + n))).1,
       (drainHeaderDelimitedMessages (buf.drop (i + 4 + n))).2) := by
  have hle := findSep_some_le hi
  cases buf with
  | nil => exact Option.noConfusion ((rfl : findSep [] = none) ▸ hi)
  | cons b bs =>
    unfold drainHeaderDelimitedMessages
    simp only [List.length_cons]
    rw [drainF_succ_complete bs.length hi hn hc]
    have hrec : drainF bs.length ((b :: bs).drop (i + 4 + n)) =
        drainF ((b :: bs).drop (i + 4 + n)).length
          ((b :: bs).drop (i + 4 + n)) := by
      apply drainF_congr
      · rw [List.length_drop]
        simp only [List.length_cons] at hc ⊢
        omega
      · rfl
    rw [hrec]

theorem drain_incomplete {buf : List Nat} {i n : Nat}
    (hi : findSep buf = some i) (hn : findContentLength (buf.take i) = some n)
    (hc : buf.length < i + 4 + n) :
    drainHeaderDelimitedMessages buf = ([], buf) := by
  cases buf with
  | nil => exact Option.noConfusion ((rfl : findSep [] = none) ▸ hi)
  | cons b bs =>
    unfold drainHeaderDelimitedMessages
    simp only [List.length_cons]
    rw [drainF_succ_incomplete bs.length hi hn
      (by simp only [List.length_cons] at hc ⊢; omega)]

/-- Draining the concatenation equals draining the prefix and then
draining its residual extended by the suffix: the central composition
property behind chunk-split invariance. -/
theorem drain_append : ∀ (b c : List Nat),
    drainHeaderDelimitedMessages (b ++ c) =
      ((drainHeaderDelimitedMessages b).1 ++
        (drainHeaderDelimitedMessages
          ((drainHeaderDelimitedMessages b).2 ++ c)).1,
       (drainHeaderDelimitedMessages
          ((drainHeaderDelimitedMessages b).2 ++ c)).2) := by
  have main : ∀ (fuel : Nat) (b c : List Nat), b.length ≤ fuel →
      drainHeaderDelimitedMessages (b ++ c) =
        ((drainHeaderDelimitedMessages b).1 ++
          (drainHeaderDelimitedMessages
            ((drainHeaderDelimitedMessages b).2 ++ c)).1,
         (drainHeaderDelimitedMessages
            ((drainHeaderDelimitedMessages b).2 ++ c)).2) := by
    intro fuel
    induction fuel with
    | zero =>
      intro b c hb
      have : b = [] := List.eq_nil_of_length_eq_zero (Nat.le_zero.mp hb)
      subst this
      have hD : drainHeaderDelimitedMessages ([] : List Nat) = ([], []) := rfl
      rw [hD]
      simp
    | succ m ih =>
      intro b c hb
      cases hsep : findSep b with
      | none =>
        rw [drain_nosep hsep]
        simp
      | some i =>
        have hle := findSep_some_le hsep
        have hsep2 : findSep (b ++ c) = some i := findSep_append hsep
        have htake : (b ++ c).take i = b.take i :=
          List.take_append_of_le_length (by omega)
        have hdrop4 : (b ++ c).drop (i + 4) = b.drop (i + 4) ++ c :=
          List.drop_append_of_le_length (by omega)
        cases hcl : findContentLength (b.take i) with
        | none =>
          have hcl2 : findContentLength ((b ++ c).take i) = none := by
            rw [htake]; exact hcl
          rw [drain_skip hsep2 hcl2, hdrop4, drain_skip hsep hcl]
          apply ih
          rw [List.length_drop]
          omega
        | some n =>
          have hcl2 : findContentLength ((b ++ c).take i) = some n := by
            rw [htake]; exact hcl
          by_cases hc : i + 4 + n ≤ b.length
          · have hc2 : i + 4 + n ≤ (b ++ c).length := by
              rw [List.length_append]; omega
            have hdropn : (b ++ c).drop (i + 4 + n) =
                b.drop (i + 4 + n) ++ c :=
              List.drop_append_of_le_length (by omega)
            have hbody : ((b ++ c).drop (i + 4)).take n =
                (b.drop (i + 4)).take n := by
              rw [hdrop4]
              exact List.take_append_of_le_length
                (by rw [List.length_drop]; omega)
            rw [drain_complete hsep2 hcl2 hc2, hdropn, hbody,
              drain_complete hsep hcl hc]
            have hihn := ih (b.drop (i + 4 + n)) c
              (by rw [List.length_drop]; omega)
            rw [hihn]
            simp
          · have hbc : drainHeaderDelimitedMessages b = ([], b) :=
              drain_incomplete hsep hcl (by omega)
            rw [hbc]
            simp
  intro b c
  exact main b.length b c le_rfl

/-- The residual buffer left by a drain is itself fully drained: more
draining without new input emits nothing. -/
theorem drain_residual (b : List Nat) :
    drainHeaderDelimitedMessages ((drainHeaderDelimitedMessages b).2) =
      ([], (drainHeaderDelimitedMessages b).2) := by
  have h := drain_append b []
  rw [List.append_nil, List.append_nil] at h
  have h1 : (drainHeaderDelimitedMessages b).1 =
      (drainHeaderDelimitedMessages b).1 ++
        (drainHeaderDelimitedMessages
          ((drainHeaderDelimitedMessages b).2)).1 := by
    have := congrArg Prod.fst h
    simpa using this
  have h2 : (drainHeaderDelimitedMessages b).2 =
      (drainHeaderDelimitedMessages
        ((drainHeaderDelimitedMessages b).2)).2 := by
    have := congrArg Prod.snd h
    simpa using this
  have hemp : (drainHeaderDelimitedMessages
      ((drainHeaderDelimitedMessages b).2)).1 = [] := by
    have := h1.symm
    have hlen := congrArg List.length h1
    rw [List.length_append] at hlen
    have : (drainHeaderDelimitedMessages
        ((drainHeaderDelimitedMessages b).2)).1.length = 0 := by omega
    exact List.eq_nil_of_length_eq_zero this
  refine Prod.ext ?_ ?_
  · simp [hemp]
  · simp [← h2]

theorem processChunks_foldl : ∀ (chunks : List (List Nat))
    (ms : List (List Nat)) (buf : List Nat),
    drainHeaderDelimitedMessages buf = ([], buf) →
    chunks.foldl handleStdoutChunk (ms, buf) =
      (ms ++ (drainHeaderDelimitedMessages (buf ++ chunks.join)).1,
       (drainHeaderDelimitedMessages (buf ++ chunks.join)).2) := by
  intro chunks
  induction chunks with
  | nil =>
    intro ms buf hq
    simp only [List.foldl_nil, List.join_nil, List.append_nil, hq]
  | cons ch rest ih =>
    intro ms buf hq
    rw [List.foldl_cons]
    have hstep : handleStdoutChunk (ms, buf) ch =
        (ms ++ (drainHeaderDelimitedMessages (buf ++ ch)).1,
         (drainHeaderDelimitedMessages (buf ++ ch)).2) := rfl
    rw [hstep]
    have hres := drain_residual (buf ++ ch)
    rw [ih _ _ hres]
    have hjoin : buf ++ (ch :: rest).join = (buf ++ ch) ++ rest.join := by
      simp [List.join_cons]
    rw [hjoin, drain_append (buf ++ ch) rest.join]
    simp [List.append_assoc]

/-- C2.  First conjunct: feeding any byte sequence to the parser in any
partition into chunks (single-byte chunks included) produces exactly
the frames of draining the whole sequence at once, in order, and leaves
the identical residual buffer, so later messages are not corrupted.
Second conjunct: a header block lacking a recognizable Content-Length
field is discarded up through its CRLFCRLF terminator and parsing
continues on the rest. -/
theorem c2_parser_split_invariance_and_skip :
    (∀ chunks : List (List Nat),
      processChunks chunks = drainHeaderDelimitedMessages chunks.join)
    ∧ (∀ (buf : List Nat) (i : Nat), findSep buf = some i →
        findContentLength (buf.take i) = none →
        drainHeaderDelimitedMessages buf =
          drainHeaderDelimitedMessages (buf.drop (i + 4))) := by
  constructor
  · intro chunks
    have h := processChunks_foldl chunks [] [] (by rfl)
    unfold processChunks
    rw [h]
    simp
  · intro buf i hi hn
    exact drain_skip hi hn

set_option maxRecDepth 8192 in
/-- Closed witness for C2: a stream holding a complete frame, then a
header block without Content-Length, then another frame, fed one byte
at a time, decodes to the two bodies with an empty residual buffer and
the malformed block is skipped; a header whose Content-Length gap is a
UTF-8 no-break space is recognized; a 310-digit Content-Length parses
to infinity, so its block is skipped and the following frame still
drains. -/
theorem c2_witness :
    processChunks ((strBytes
        "Content-Length: 3\r\n\r\nabcX-Head: 1\r\n\r\nContent-Length: 2\r\n\r\nok").map
        (fun b => [b])) =
      drainHeaderDelimitedMessages ((strBytes
        "Content-Length: 3\r\n\r\nabcX-Head: 1\r\n\r\nContent-Length: 2\r\n\r\nok").map
        (fun b => [b])).join
    ∧ drainHeaderDelimitedMessages
        (strBytes "X-Head: 1\r\n\r\nContent-Length: 2\r\n\r\nok") =
      drainHeaderDelimitedMessages
        ((strBytes "X-Head: 1\r\n\r\nContent-Length: 2\r\n\r\nok").drop 13)
    ∧ drainHeaderDelimitedMessages
        (strBytes "Content-Length: 3\r\n\r\nabcX-Head: 1\r\n\r\nContent-Length: 2\r\n\r\nok") =
      ([strBytes "abc", strBytes "ok"], [])
    ∧ drainHeaderDelimitedMessages
        (strBytes "Content-Length:" ++ [194, 160] ++ strBytes "2\r\n\r\nok") =
      ([strBytes "ok"], [])
    ∧ drainHeaderDelimitedMessages
        (strBytes "Content-Length: " ++ List.replicate 310 49 ++
          strBytes "\r\n\r\nContent-Length: 2\r\n\r\nok") =
      ([strBytes "ok"], []) := by
  refine ⟨c2_parser_split_invariance_and_skip.1 _, ?_, ?_, ?_, ?_⟩
  · exact c2_parser_split_invariance_and_skip.2
      (strBytes "X-Head: 1\r\n\r\nContent-Length: 2\r\n\r\nok") 9
      (by decide) (by decide)
  · decide
  · decide
  · decide

/-! ## Launch with framing fallback (launch / launchWithFraming)

launchWithFraming spawns a process, builds a client and awaits the
initialize handshake; a spawn error surfaces through the process error
event, which rejects the pending initialize request, so the attempt
fails exactly as a handshake error does.  On any failure the attempt's
client is closed and the error rethrown.  launch makes the line-framing
attempt and, on any error, one header-framing attempt with a fresh
spawn.  The per-attempt behaviour of the external process is an oracle
parameter. -/

inductive McpFraming where
  | line : McpFraming
  | header : McpFraming
deriving DecidableEq

/-- What the spawned process does during one attempt: the spawn itself
may fail (error event), otherwise the initialize request either
resolves or fails (remote error, timeout, process exit before the
response). -/
structure AttemptOutcome where
  spawnError : Option String
  initOutcome : Except String Unit

inductive LaunchEvent where
  | spawned (f : McpFraming) : LaunchEvent
  | handshakeOk (f : McpFraming) : LaunchEvent
  | attemptClosed (f : McpFraming) : LaunchEvent
deriving DecidableEq

/-- Model of launchWithFraming: spawn, initialize, and on failure close
the fresh client and rethrow.  Returns the attempt result and the
events of this attempt. -/
def launchWithFraming (outcome : McpFraming → AttemptOutcome)
    (f : McpFraming) : Except String Unit × List LaunchEvent :=
  match (outcome f).spawnError with
  | some msg =>
    (Except.error ("process error: " ++ msg),
     [LaunchEvent.spawned f, LaunchEvent.attemptClosed f])
  | none =>
    match (outcome f).initOutcome with
    | Except.ok _ => (Except.ok (), [LaunchEvent.spawned f,
        LaunchEvent.handshakeOk f])
    | Except.error e => (Except.error e,
        [LaunchEvent.spawned f, LaunchEvent.attemptClosed f])

/-- Model of launch: try line framing; on any error retry once with
header framing; the header attempt's result is final. -/
def launch (outcome : McpFraming → AttemptOutcome) :
    Except String Unit × List LaunchEvent :=
  match launchWithFraming outcome McpFraming.line with
  | (Except.ok u, evs) => (Except.ok u, evs)
  | (Except.error _, evs) =>
    let second := launchWithFraming outcome McpFraming.header
    (second.1, evs ++ second.2)

/-- The framings spawned during a launch, in order. -/
def spawnedFramings (evs : List LaunchEvent) : List McpFraming :=
  evs.filterMap (fun e =>
    match e with
    | LaunchEvent.spawned f => some f
    | _ => none)

theorem launchWithFraming_spawns (outcome : McpFraming → AttemptOutcome)
    (f : McpFraming) :
    spawnedFramings (launchWithFraming outcome f).2 = [f] := by
  unfold launchWithFraming
  cases (outcome f).spawnError with
  | some msg => rfl
  | none =>
    cases (outcome f).initOutcome with
    | ok u => rfl
    | error e => rfl

/-- C3.  launch attempts line framing first; if the line attempt
succeeds nothing else is spawned; if it fails for any reason, exactly
one retry happens, with a freshly spawned process under header framing,
and the overall result is that second attempt's result — no further
fallback or retry exists. -/
theorem c3_launch_line_then_single_header_retry
    (outcome : McpFraming → AttemptOutcome) :
    ((∀ u, (launchWithFraming outcome McpFraming.line).1 = Except.ok u →
      launch outcome = launchWithFraming outcome McpFraming.line
      ∧ spawnedFramings (launch outcome).2 = [McpFraming.line])
    ∧ (∀ e, (launchWithFraming outcome McpFraming.line).1 = Except.error e →
      (launch outcome).1 = (launchWithFraming outcome McpFraming.header).1
      ∧ spawnedFramings (launch outcome).2 =
          [McpFraming.line, McpFraming.header])) := by
  constructor
  · intro u hok
    unfold launch
    cases hA : launchWithFraming outcome McpFraming.line with
    | mk r evs =>
      rw [hA] at hok
      simp only [] at hok
      subst hok
      constructor
      · rfl
      · have := launchWithFraming_spawns outcome McpFraming.line
        rw [hA] at this
        simpa using this
  · intro e herr
    unfold launch
    cases hA : launchWithFraming outcome McpFraming.line with
    | mk r evs =>
      rw [hA] at herr
      simp only [] at herr
      subst herr
      constructor
      · rfl
      · have h1 := launchWithFraming_spawns outcome McpFraming.line
        have h2 := launchWithFraming_spawns outcome McpFraming.header
        rw [hA] at h1
        simp only [] at h1 h2
        simp only [spawnedFramings, List.filterMap_append] at h1 h2 ⊢
        rw [h1, h2]
        rfl

/-- Closed witness for C3: with a line attempt that fails its handshake
and a header attempt that succeeds, exactly the two framings are
spawned in order and the launch succeeds. -/
theorem c3_witness :
    (launch (fun f =>
      match f with
      | McpFraming.line => AttemptOutcome.mk none (Except.error "timeout")
      | McpFraming.header => AttemptOutcome.mk none (Except.ok ()))).1 =
        Except.ok ()
    ∧ spawnedFramings (launch (fun f =>
      match f with
      | McpFraming.line => AttemptOutcome.mk none (Except.error "timeout")
      | McpFraming.header => AttemptOutcome.mk none (Except.ok ()))).2 =
        [McpFraming.line, McpFraming.header] := by
  have h := (c3_launch_line_then_single_header_retry (fun f =>
    match f with
    | McpFraming.line => AttemptOutcome.mk none (Except.error "timeout")
    | McpFraming.header => AttemptOutcome.mk none (Except.ok ()))).2
    "timeout" (by rfl)
  exact ⟨by rw [h.1]; rfl, h.2⟩

/-- C9 counterexample: with a line attempt whose spawn itself fails, the
launch still performs the header-framing retry — the spawn error is
treated exactly like a handshake failure, contradicting the claim that
a spawn error does not trigger the fallback. -/
theorem c9_counterexample :
    spawnedFramings (launch (fun _ =>
      AttemptOutcome.mk (some "spawn ENOENT") (Except.ok ()))).2 =
      [McpFraming.line, McpFraming.header]
    ∧ (launch (fun _ =>
      AttemptOutcome.mk (some "spawn ENOENT") (Except.ok ()))).1 =
      Except.error "process error: spawn ENOENT" := by
  constructor
  · rfl
  · rfl

/-- C9 (amended).  A spawn error makes that attempt fail (its client is
torn down: the attempt emits no handshake success and ends closed), and
on the line attempt it triggers the single header-framing retry like
any other initialize failure; the overall result is then the header
attempt's. -/
theorem c9_spawn_error_fails_attempt_and_retries
    (outcome : McpFraming → AttemptOutcome) (msg : String)
    (hspawn : (outcome McpFraming.line).spawnError = some msg) :
    (launchWithFraming outcome McpFraming.line).1 =
      Except.error ("process error: " ++ msg)
    ∧ (launchWithFraming outcome McpFraming.line).2 =
      [LaunchEvent.spawned McpFraming.line,
       LaunchEvent.attemptClosed McpFraming.line]
    ∧ (launch outcome).1 = (launchWithFraming outcome McpFraming.header).1
    ∧ spawnedFramings (launch outcome).2 =
        [McpFraming.line, McpFraming.header] := by
  have hA : launchWithFraming outcome McpFraming.line =
      (Except.error ("process error: " ++ msg),
       [LaunchEvent.spawned McpFraming.line,
        LaunchEvent.attemptClosed McpFraming.line]) := by
    unfold launchWithFraming
    rw [hspawn]
  refine ⟨by rw [hA], by rw [hA], ?_, ?_⟩
  · unfold launch
    rw [hA]
  · unfold launch
    rw [hA]
    have h2 := launchWithFraming_spawns outcome McpFraming.header
    simp only [spawnedFramings, List.filterMap_append] at h2 ⊢
    rw [h2]
    rfl

/-- Closed witness for the amended C9 at a concrete spawn failure. -/
theorem c9_witness :
    (launch (fun f =>
      match f with
      | McpFraming.line =>
        AttemptOutcome.mk (some "ENOENT") (Except.ok ())
      | McpFraming.header => AttemptOutcome.mk none (Except.ok ()))).1 =
      Except.ok ()
    ∧ spawnedFramings (launch (fun f =>
      match f with
      | McpFraming.line =>
        AttemptOutcome.mk (some "ENOENT") (Except.ok ())
      | McpFraming.header => AttemptOutcome.mk none (Except.ok ()))).2 =
      [McpFraming.line, McpFraming.header] := by
  have h := c9_spawn_error_fails_attempt_and_retries (fun f =>
    match f with
    | McpFraming.line => AttemptOutcome.mk (some "ENOENT") (Except.ok ())
    | McpFraming.header => AttemptOutcome.mk none (Except.ok ()))
    "ENOENT" (by rfl)
  refine ⟨?_, h.2.2.2⟩
  rw [h.2.2.1]
  rfl

/-! ## Aggregate cleanup (createEmbeddedMcpTools cleanup closure)

The aggregate handle's cleanup guards on a flag, then closes the
launched clients in reverse launch order, swallowing (logging) each
close error so that one failure cannot stop the rest. -/

structure AggregateState where
  cleanedUp : Bool
  clients : List Nat

/-- The cleanup loop over an already-reversed client list: every client
gets a close attempt; a close error becomes a log line and the loop
continues.  Returns the close attempts in order and the log lines. -/
def cleanupLoop (closeOutcome : Nat → Except String Unit) :
    List Nat → List Nat × List String
  | [] => ([], [])
  | c :: rest =>
    let t := cleanupLoop closeOutcome rest
    match closeOutcome c with
    | Except.ok _ => (c :: t.1, t.2)
    | Except.error e => (c :: t.1, ("MCP cleanup failed: " ++ e) :: t.2)

/-- Model of the cleanup closure: a no-op once the guard flag is set,
otherwise set the flag and close every client in reverse launch
order. -/
def runCleanup (closeOutcome : Nat → Except String Unit)
    (st : AggregateState) : AggregateState × List Nat × List String :=
  if st.cleanedUp then (st, [], [])
  else
    let t := cleanupLoop closeOutcome st.clients.reverse
    (AggregateState.mk true st.clients, t.1, t.2)

theorem cleanupLoop_attempts (closeOutcome : Nat → Except String Unit) :
    ∀ l : List Nat, (cleanupLoop closeOutcome l).1 = l := by
  intro l
  induction l with
  | nil => rfl
  | cons c rest ih =>
    unfold cleanupLoop
    cases closeOutcome c with
    | ok u => simpa using ih
    | error e => simpa using ih

/-- C7.  One cleanup invocation closes the launched transports in
reverse launch order; close attempts are made for every transport
whatever each close's outcome (a failing close is logged, never
propagated, and never blocks the remaining closes); a second invocation
performs no close at all, so across repeated invocations each transport
receives its teardown at most once. -/
theorem c7_cleanup_reverse_idempotent_isolated
    (closeOutcome closeOutcome2 : Nat → Except String Unit)
    (clients : List Nat) :
    (runCleanup closeOutcome (AggregateState.mk false clients)).2.1 =
      clients.reverse
    ∧ (runCleanup closeOutcome2 (AggregateState.mk false clients)).2.1 =
      clients.reverse
    ∧ (runCleanup closeOutcome2
        (runCleanup closeOutcome (AggregateState.mk false clients)).1).2.1 = []
    ∧ (∀ c : Nat,
        ((runCleanup closeOutcome (AggregateState.mk false clients)).2.1 ++
         (runCleanup closeOutcome2
           (runCleanup closeOutcome
             (AggregateState.mk false clients)).1).2.1).count c =
        clients.count c) := by
  refine ⟨?_, ?_, ?_, ?_⟩
  · unfold runCleanup
    simp [cleanupLoop_attempts]
  · unfold runCleanup
    simp [cleanupLoop_attempts]
  · rfl
  · intro c
    unfold runCleanup
    simp [cleanupLoop_attempts, List.count_reverse]

/-! ## Shutdown signal escalation (close)

After the best-effort shutdown RPC, exit notification and stream end,
close waits one grace window; if the process has not exited it sends
SIGTERM and waits another grace window; then it consults the child's
killed flag.  In the runtime that flag records that a signal was
previously delivered successfully — it does not indicate whether the
process is alive — so the model keeps the process's actual liveness as
a separate observation that the code never reads. -/

inductive KillSignal where
  | sigterm : KillSignal
  | sigkill : KillSignal
deriving DecidableEq

structure ShutdownBehavior where
  exitsWithinFirstGrace : Bool
  sigtermDelivered : Bool
  exitsWithinSecondGrace : Bool
  aliveAfterSecondGrace : Bool

/-- Signals actually delivered by the escalation tail of close.  The
final branch of the source sends SIGKILL only when the child's killed
flag is still false, i.e. when no earlier signal was delivered. -/
def closeEscalationSignals (b : ShutdownBehavior) : List KillSignal :=
  if b.exitsWithinFirstGrace then []
  else
    let afterTerm := if b.sigtermDelivered then [KillSignal.sigterm] else []
    let killedFlag := b.sigtermDelivered
    if killedFlag then afterTerm else afterTerm ++ [KillSignal.sigkill]

/-- C8 (code bug).  A process that survives both grace windows and
received the SIGTERM gets no SIGKILL: the source guards the forced kill
on the child's killed flag (signal-delivered), not on liveness, so the
still-alive process is never forcefully killed, contradicting the
spec's "if still alive, send a forceful kill signal". -/
theorem c8_sigkill_skipped_for_live_process :
    closeEscalationSignals (ShutdownBehavior.mk false true false true) =
      [KillSignal.sigterm]
    ∧ KillSignal.sigkill ∉
        closeEscalationSignals (ShutdownBehavior.mk false true false true)
    ∧ (ShutdownBehavior.mk false true false true).aliveAfterSecondGrace =
        true := by
  refine ⟨rfl, ?_, rfl⟩
  intro hmem
  simp [closeEscalationSignals] at hmem

/-! ## Tool name construction (normalizeMcpToolNameSegment /
buildUniqueToolName)

Names are ASCII, modelled as lists of characters.  The session-wide
registry of reserved names (a Set of lowercased names in the source) is
an explicit list with membership; reserving appends.  The third
component returned by the functions below is instrumentation absent
from the source: it records whether the numeric-suffix search was
exhausted and the unchecked fallback name used. -/

/-- ASCII lowercasing (the names built here are ASCII; JS toLowerCase
agrees with ASCII lowercasing on them). -/
def asciiLower (c : Char) : Char :=
  if 'A' ≤ c ∧ c ≤ 'Z' then Char.ofNat (c.toNat + 32) else c

def isLowerNameChar (c : Char) : Bool :=
  (decide ('a' ≤ c) && decide (c ≤ 'z')) ||
  (decide ('0' ≤ c) && decide (c ≤ '9')) || decide (c = '_')

/-- Replace every maximal run of characters outside lowercase
alphanumerics and underscore by a single underscore (the first regex
replace of the source); the flag records whether the previous character
was part of such a run. -/
def squashBadRuns (prevBad : Bool) : List Char → List Char
  | [] => []
  | c :: rest =>
    if isLowerNameChar c then c :: squashBadRuns false rest
    else if prevBad then squashBadRuns true rest
    else '_' :: squashBadRuns true rest

/-- Collapse every maximal run of underscores to a single underscore
(the second regex replace of the source). -/
def squashUnderscoreRuns (prevUnd : Bool) : List Char → List Char
  | [] => []
  | c :: rest =>
    if c = '_' then
      if prevUnd then squashUnderscoreRuns true rest
      else '_' :: squashUnderscoreRuns true rest
    else c :: squashUnderscoreRuns false rest

/-- Strip the leading and the trailing underscore runs (the anchored
third regex replace of the source). -/
def stripEdgeUnderscores (l : List Char) : List Char :=
  ((l.dropWhile (fun c => c == '_')).reverse.dropWhile
    (fun c => c == '_')).reverse

/-- normalizeMcpToolNameSegment: lowercase, squash disallowed runs,
squash underscore runs, strip edge underscores, defaulting to "tool"
when nothing remains. -/
def normalizeMcpToolNameSegment (s : List Char) : List Char :=
  let cleaned := stripEdgeUnderscores
    (squashUnderscoreRuns false (squashBadRuns false (s.map asciiLower)))
  if cleaned.isEmpty then "tool".toList else cleaned

def digitChar (d : Nat) : Char :=
  match d with
  | 0 => '0'
  | 1 => '1'
  | 2 => '2'
  | 3 => '3'
  | 4 => '4'
  | 5 => '5'
  | 6 => '6'
  | 7 => '7'
  | 8 => '8'
  | 9 => '9'
  | _ => '9'

/-- Fuel-driven decimal rendering; fuel at least the rendered number
(as the wrapper passes) never runs out. -/
def natCharsF : Nat → Nat → List Char
  | 0, n => [digitChar n]
  | fuel + 1, n =>
    if n < 10 then [digitChar n]
    else natCharsF fuel (n / 10) ++ [digitChar (n % 10)]

/-- Decimal rendering of a natural (the template interpolation of the
suffix counter). -/
def natChars (n : Nat) : List Char :=
  natCharsF n n

theorem natCharsF_congr : ∀ (f1 f2 n : Nat), n ≤ f1 → n ≤ f2 →
    natCharsF f1 n = natCharsF f2 n := by
  intro f1
  induction f1 with
  | zero =>
    intro f2 n h1 h2
    obtain rfl : n = 0 := by omega
    cases f2 with
    | zero => rfl
    | succ k => simp [natCharsF]
  | succ m ih =>
    intro f2 n h1 h2
    cases f2 with
    | zero =>
      obtain rfl : n = 0 := by omega
      simp [natCharsF]
    | succ k =>
      simp only [natCharsF]
      by_cases h : n < 10
      · simp [h]
      · rw [if_neg h, if_neg h]
        have hdiv : n / 10 < n := Nat.div_lt_self (by omega) (by omega)
        rw [ih k (n / 10) (by omega) (by omega)]

theorem natChars_lt {n : Nat} (h : n < 10) : natChars n = [digitChar n] := by
  unfold natChars
  cases hn : n with
  | zero => rfl
  | succ k => simp [natCharsF, hn ▸ h]

theorem natChars_ge {n : Nat} (h : ¬ n < 10) :
    natChars n = natChars (n / 10) ++ [digitChar (n % 10)] := by
  unfold natChars
  obtain ⟨k, hk⟩ : ∃ k, n = k + 1 := ⟨n - 1, by omega⟩
  rw [hk]
  simp only [natCharsF]
  rw [if_neg (hk ▸ h)]
  have hdiv : (k + 1) / 10 < k + 1 := Nat.div_lt_self (by omega) (by omega)
  rw [natCharsF_congr k ((k + 1) / 10) ((k + 1) / 10) (by omega) le_rfl]

def digitsVal (l : List Char) : Nat :=
  l.foldl (fun a c => a * 10 + (c.toNat - 48)) 0

theorem digitChar_toNat {d : Nat} (h : d < 10) :
    (digitChar d).toNat = 48 + d := by
  interval_cases d <;> rfl

theorem digitsVal_append (xs : List Char) (c : Char) :
    digitsVal (xs ++ [c]) = 10 * digitsVal xs + (c.toNat - 48) := by
  unfold digitsVal
  rw [List.foldl_append]
  simp [Nat.mul_comm]

theorem digitsVal_go (a : Nat) (l : List Char) :
    l.foldl (fun a c => a * 10 + (c.toNat - 48)) a =
      a * 10 ^ l.length + digitsVal l := by
  induction l generalizing a with
  | nil => simp [digitsVal]
  | cons c rest ih =>
    unfold digitsVal
    rw [List.foldl_cons, List.foldl_cons, ih, ih]
    ring_nf
    simp [Nat.pow_succ]
    ring

theorem digitsVal_natChars (n : Nat) : digitsVal (natChars n) = n := by
  induction n using Nat.strong_induction_on with
  | _ n ih =>
    by_cases h : n < 10
    · rw [natChars_lt h]
      unfold digitsVal
      simp [digitChar_toNat h]
    · rw [natChars_ge h, digitsVal_append]
      rw [ih (n / 10) (Nat.div_lt_self (by omega) (by omega))]
      rw [digitChar_toNat (Nat.mod_lt _ (by omega))]
      omega

theorem natChars_inj {m n : Nat} (h : natChars m = natChars n) : m = n := by
  have := congrArg digitsVal h
  rwa [digitsVal_natChars, digitsVal_natChars] at this

theorem digitChar_mem_digits {d : Nat} (h : d < 10) :
    digitChar d ∈ ['0', '1', '2', '3', '4', '5', '6', '7', '8', '9'] := by
  interval_cases d <;> simp [digitChar]

theorem natChars_digits (n : Nat) :
    ∀ c ∈ natChars n,
      c ∈ ['0', '1', '2', '3', '4', '5', '6', '7', '8', '9'] := by
  induction n using Nat.strong_induction_on with
  | _ n ih =>
    intro c hc
    by_cases h : n < 10
    · rw [natChars_lt h] at hc
      simp only [List.mem_singleton] at hc
      subst hc
      exact digitChar_mem_digits h
    · rw [natChars_ge h] at hc
      rcases List.mem_append.mp hc with hl | hr
      · exact ih (n / 10) (Nat.div_lt_self (by omega) (by omega)) c hl
      · simp only [List.mem_singleton] at hr
        subst hr
        exact digitChar_mem_digits (Nat.mod_lt _ (by omega))

theorem natChars_length {k : Nat} : ∀ n : Nat, 1 ≤ k → n < 10 ^ k →
    (natChars n).length ≤ k := by
  induction k with
  | zero => intro n h1; omega
  | succ k ih =>
    intro n _ hn
    by_cases h : n < 10
    · rw [natChars_lt h]; simp
    · rw [natChars_ge h]
      have hk : 1 ≤ k := by
        by_contra hk0
        have : k = 0 := by omega
        subst this
        simp [Nat.pow_succ] at hn
        omega
      have hdiv : n / 10 < 10 ^ k := by
        rw [Nat.div_lt_iff_lt_mul (by omega)]
        calc n < 10 ^ (k + 1) := hn
          _ = 10 ^ k * 10 := by rw [Nat.pow_succ]
      have := ih (n / 10) hk hdiv
      rw [List.length_append]
      simp only [List.length_singleton]
      omega

theorem asciiLower_digit {c : Char}
    (h : c ∈ ['0', '1', '2', '3', '4', '5', '6', '7', '8', '9']) :
    asciiLower c = c := by
  fin_cases h <;> rfl

theorem natChars_map_lower (n : Nat) :
    (natChars n).map asciiLower = natChars n := by
  have : (natChars n).map asciiLower = (natChars n).map id := by
    apply List.map_congr_left
    intro c hc
    exact asciiLower_digit (natChars_digits n c hc)
  rw [this, List.map_id]

/-- The numeric-suffix candidate at counter i: the base re-truncated so
that base plus suffix stays within the 64-character cap. -/
def candidateName (base : List Char) (i : Nat) : List Char :=
  base.take (max 1 (64 - ('_' :: natChars i).length)) ++ '_' :: natChars i

/-- The unchecked final fallback name of the source. -/
def fallbackName (base : List Char) : List Char :=
  base.take 62 ++ ['_', 'x']

/-- The suffix loop of buildUniqueToolName: try counters from i up to
9999; the first candidate whose lowercase form is unreserved is
reserved and returned; an exhausted loop returns the fallback name,
reserving it without a uniqueness check (the instrumentation flag is
true exactly then). -/
def goSuffixF : Nat → List Char → List (List Char) → Nat →
    List Char × List (List Char) × Bool
  | 0, base, used, _ =>
    (fallbackName base, (used ++ [(fallbackName base).map asciiLower], true))
  | fuel + 1, base, used, i =>
    if i < 10000 then
      if (candidateName base i).map asciiLower ∈ used then
        goSuffixF fuel base used (i + 1)
      else
        (candidateName base i,
         (used ++ [(candidateName base i).map asciiLower], false))
    else
      (fallbackName base,
       (used ++ [(fallbackName base).map asciiLower], true))

def goSuffix (base : List Char) (used : List (List Char)) (i : Nat) :
    List Char × List (List Char) × Bool :=
  goSuffixF (10000 - i) base used i

theorem goSuffix_eq (base : List Char) (used : List (List Char)) (i : Nat) :
    goSuffix base used i =
      if i < 10000 then
        if (candidateName base i).map asciiLower ∈ used then
          goSuffix base used (i + 1)
        else
          (candidateName base i,
           (used ++ [(candidateName base i).map asciiLower], false))
      else
        (fallbackName base,
         (used ++ [(fallbackName base).map asciiLower], true)) := by
  by_cases hi : i < 10000
  · have hd : 10000 - i = (10000 - (i + 1)) + 1 := by omega
    unfold goSuffix
    rw [hd]
    simp only [goSuffixF]
  · have hd : 10000 - i = 0 := by omega
    unfold goSuffix
    rw [hd]
    simp only [goSuffixF]
    rw [if_neg hi]

/-- buildUniqueToolName: normalize both segments, build the truncated
base, reserve and return it when its lowercase form is unreserved,
otherwise run the suffix loop from 2. -/
def buildUniqueToolName (serverName remoteToolName : List Char)
    (usedNames : List (List Char)) :
    List Char × List (List Char) × Bool :=
  let base := ("mcp_".toList ++ normalizeMcpToolNameSegment serverName ++
    '_' :: normalizeMcpToolNameSegment remoteToolName).take 64
  if base.map asciiLower ∈ usedNames then goSuffix base usedNames 2
  else (base, (usedNames ++ [base.map asciiLower], false))

/-- The naming loop of one discovery session over (server, tool) pairs,
threading the reserved-name registry; returns the assigned names in
order, the final registry, and whether any call fell back. -/
def assignToolNames :
    List (List Char × List Char) → List (List Char) →
      List (List Char) × List (List Char) × Bool
  | [], used => ([], (used, false))
  | e :: rest, used =>
    let r := buildUniqueToolName e.1 e.2 used
    let t := assignToolNames rest r.2.1
    (r.1 :: t.1, (t.2.1, r.2.2 || t.2.2))

theorem natChars_pos (n : Nat) : 0 < (natChars n).length := by
  by_cases h : n < 10
  · rw [natChars_lt h]; simp
  · rw [natChars_ge h]; simp

theorem candidateName_length {base : List Char} {i : Nat} (h : i < 10000) :
    (candidateName base i).length ≤ 64 := by
  unfold candidateName
  have hd : (natChars i).length ≤ 4 :=
    natChars_length i (by omega) (by norm_num; omega)
  have hp := natChars_pos i
  rw [List.length_append, List.length_take]
  simp only [List.length_cons]
  omega

theorem fallbackName_length (base : List Char) :
    (fallbackName base).length ≤ 64 := by
  unfold fallbackName
  rw [List.length_append, List.length_take]
  simp only [List.length_cons, List.length_nil]
  omega

/-- The loop invariant of the suffix search: the registry gains exactly
the returned name's lowercase form, and on the non-fallback paths that
form was unreserved before. -/
theorem goSuffix_inv (base : List Char) (used : List (List Char)) (i : Nat) :
    (goSuffix base used i).2.1 =
      used ++ [(goSuffix base used i).1.map asciiLower]
    ∧ ((goSuffix base used i).2.2 = false →
        (goSuffix base used i).1.map asciiLower ∉ used)
    ∧ (goSuffix base used i).1.length ≤ 64 := by
  have main : ∀ (d j : Nat), 10000 - j ≤ d →
      (goSuffix base used j).2.1 =
        used ++ [(goSuffix base used j).1.map asciiLower]
      ∧ ((goSuffix base used j).2.2 = false →
          (goSuffix base used j).1.map asciiLower ∉ used)
      ∧ (goSuffix base used j).1.length ≤ 64 := by
    intro d
    induction d with
    | zero =>
      intro j hj
      have hge : ¬ j < 10000 := by omega
      rw [goSuffix_eq, if_neg hge]
      refine ⟨rfl, ?_, fallbackName_length base⟩
      intro hfalse
      exact Bool.noConfusion hfalse
    | succ d ih =>
      intro j hj
      by_cases hlt : j < 10000
      · rw [goSuffix_eq, if_pos hlt]
        by_cases hmem : (candidateName base j).map asciiLower ∈ used
        · rw [if_pos hmem]
          exact ih (j + 1) (by omega)
        · rw [if_neg hmem]
          exact ⟨rfl, fun _ => hmem, candidateName_length hlt⟩
      · rw [goSuffix_eq, if_neg hlt]
        refine ⟨rfl, ?_, fallbackName_length base⟩
        intro hfalse
        exact Bool.noConfusion hfalse
  exact main (10000 - i) i le_rfl

/-- The per-call invariant of buildUniqueToolName. -/
theorem buildUniqueToolName_inv (s t : List Char)
    (used : List (List Char)) :
    (buildUniqueToolName s t used).2.1 =
      used ++ [(buildUniqueToolName s t used).1.map asciiLower]
    ∧ ((buildUniqueToolName s t used).2.2 = false →
        (buildUniqueToolName s t used).1.map asciiLower ∉ used)
    ∧ (buildUniqueToolName s t used).1.length ≤ 64 := by
  unfold buildUniqueToolName
  by_cases hmem : (("mcp_".toList ++ normalizeMcpToolNameSegment s ++
      '_' :: normalizeMcpToolNameSegment t).take 64).map asciiLower ∈ used
  · rw [if_pos hmem]
    exact goSuffix_inv _ used 2
  · rw [if_neg hmem]
    refine ⟨rfl, fun _ => hmem, ?_⟩
    rw [List.length_take]
    omega

theorem assignToolNames_length : ∀ (entries : List (List Char × List Char))
    (used : List (List Char)) (name : List Char),
    name ∈ (assignToolNames entries used).1 → name.length ≤ 64 := by
  intro entries
  induction entries with
  | nil => intro used name h; simp [assignToolNames] at h
  | cons e rest ih =>
    intro used name h
    unfold assignToolNames at h
    simp only [List.mem_cons] at h
    rcases h with h | h
    · subst h
      exact (buildUniqueToolName_inv e.1 e.2 used).2.2
    · exact ih _ name h

theorem assignToolNames_pairwise : ∀ (entries : List (List Char × List Char))
    (used : List (List Char)),
    (assignToolNames entries used).2.2 = false →
    (assignToolNames entries used).1.Pairwise
      (fun a b => a.map asciiLower ≠ b.map asciiLower)
    ∧ ∀ m ∈ (assignToolNames entries used).1, m.map asciiLower ∉ used := by
  intro entries
  induction entries with
  | nil =>
    intro used _
    constructor
    · exact List.Pairwise.nil
    · intro m hm; simp [assignToolNames] at hm
  | cons e rest ih =>
    intro used hflag
    unfold assignToolNames at hflag ⊢
    simp only [Bool.or_eq_false_iff] at hflag
    obtain ⟨hf1, hf2⟩ := hflag
    obtain ⟨hreg, hfresh, _⟩ := buildUniqueToolName_inv e.1 e.2 used
    have hfresh2 := hfresh hf1
    obtain ⟨hpw, hnm⟩ := ih (buildUniqueToolName e.1 e.2 used).2.1 hf2
    constructor
    · rw [List.pairwise_cons]
      refine ⟨?_, hpw⟩
      intro b hb
      have hb2 := hnm b hb
      rw [hreg, List.mem_append] at hb2
      push_neg at hb2
      intro heq
      exact hb2.2 (by rw [← heq]; simp)
    · intro m hm
      simp only [List.mem_cons] at hm
      rcases hm with rfl | hm
      · exact hfresh2
      · have hm2 := hnm m hm
        rw [hreg, List.mem_append] at hm2
        push_neg at hm2
        exact hm2.1

/-- C5 (amended).  In one discovery session every assigned bridged tool
name is at most 64 characters long, and provided no call exhausted the
numeric-suffix search (counters 2 through 9999) and fell back to the
unchecked fallback name, the assigned names are pairwise distinct
case-insensitively — collisions being resolved by the re-truncated
numeric suffixes recorded in the session-wide registry. -/
theorem c5_session_names_unique (entries : List (List Char × List Char)) :
    (∀ name ∈ (assignToolNames entries []).1, name.length ≤ 64)
    ∧ ((assignToolNames entries []).2.2 = false →
        (assignToolNames entries []).1.Pairwise
          (fun a b => a.map asciiLower ≠ b.map asciiLower)) := by
  constructor
  · intro name h
    exact assignToolNames_length entries [] name h
  · intro hflag
    exact (assignToolNames_pairwise entries [] hflag).1

def c5SessionExample : List (List Char × List Char) :=
  [("srv".toList, "Do It".toList), ("srv".toList, "do_it".toList)]

/-- Closed witness for the amended C5: two entries normalizing to the
same base get the base and the suffixed variant, case-insensitively
distinct and within the length cap. -/
theorem c5_witness :
    ((assignToolNames c5SessionExample []).1.Pairwise
      (fun a b => a.map asciiLower ≠ b.map asciiLower))
    ∧ (∀ name ∈ (assignToolNames c5SessionExample []).1, name.length ≤ 64)
    ∧ (assignToolNames c5SessionExample []).1 =
      ["mcp_srv_do_it".toList, "mcp_srv_do_it_2".toList] := by
  refine ⟨(c5_session_names_unique c5SessionExample).2 (by decide),
    (c5_session_names_unique c5SessionExample).1, by decide⟩

/-! ### Exhausting the suffix search: the unchecked fallback collides

A session whose entries all normalize to the same base eventually
exhausts the numeric suffixes 2..9999; from then on every call returns
the same fallback name without any uniqueness check, so two bridged
tools receive identical names. -/

def exServer : List Char := "s".toList

def exTool : List Char := "t".toList

def exBase : List Char := "mcp_s_t".toList

def exCand (j : Nat) : List Char := exBase ++ '_' :: natChars j

def exFallback : List Char := exBase ++ ['_', 'x']

def exUsed (j : Nat) : List (List Char) :=
  exBase :: (List.range' 2 j).map exCand

theorem candidateName_exBase {j : Nat} (h : j < 10000) :
    candidateName exBase j = exCand j := by
  unfold candidateName exCand
  have hd : (natChars j).length ≤ 4 :=
    natChars_length j (by omega) (by norm_num; omega)
  have hlen : exBase.length ≤ max 1 (64 - ('_' :: natChars j).length) := by
    have : exBase.length = 7 := by decide
    rw [this]
    simp only [List.length_cons]
    omega
  rw [List.take_of_length_le hlen]

theorem exCand_map_lower (j : Nat) :
    (exCand j).map asciiLower = exCand j := by
  unfold exCand
  rw [List.map_append]
  have h1 : exBase.map asciiLower = exBase := by decide
  have h2 : ('_' :: natChars j).map asciiLower = '_' :: natChars j := by
    simp only [List.map_cons, natChars_map_lower]
    rfl
  rw [h1, h2]

theorem exCand_inj {j k : Nat} (h : exCand j = exCand k) : j = k := by
  unfold exCand at h
  have h2 := List.append_cancel_left h
  simp only [List.cons.injEq, true_and] at h2
  exact natChars_inj h2

theorem exCand_ne_base (j : Nat) : exCand j ≠ exBase := by
  intro h
  have hlen := congrArg List.length h
  have h7 : exBase.length = 7 := by decide
  unfold exCand at hlen
  rw [List.length_append, h7] at hlen
  simp only [List.length_cons, h7] at hlen
  have := natChars_pos j
  omega

theorem exCand_mem_exUsed {x j : Nat} :
    exCand x ∈ exUsed j ↔ 2 ≤ x ∧ x < j + 2 := by
  unfold exUsed
  rw [List.mem_cons]
  constructor
  · rintro (h | h)
    · exact absurd h (exCand_ne_base x)
    · rw [List.mem_map] at h
      obtain ⟨y, hy, hxy⟩ := h
      obtain rfl : y = x := exCand_inj hxy
      rw [List.mem_range'_1] at hy
      omega
  · intro hx
    right
    rw [List.mem_map]
    exact ⟨x, List.mem_range'_1.mpr (by omega), rfl⟩

theorem goSuffix_finds (base : List Char) (used : List (List Char)) :
    ∀ (d i m : Nat), m < 10000 → i ≤ m → m - i = d →
    (∀ x, i ≤ x → x < m → (candidateName base x).map asciiLower ∈ used) →
    (candidateName base m).map asciiLower ∉ used →
    goSuffix base used i =
      (candidateName base m,
       (used ++ [(candidateName base m).map asciiLower], false)) := by
  intro d
  induction d with
  | zero =>
    intro i m hm him hd _ hfresh
    obtain rfl : i = m := by omega
    rw [goSuffix_eq, if_pos hm, if_neg hfresh]
  | succ d ih =>
    intro i m hm him hd hall hfresh
    have hilt : i < m := by omega
    have hmem := hall i le_rfl hilt
    rw [goSuffix_eq, if_pos (by omega : i < 10000), if_pos hmem]
    exact ih (i + 1) m hm (by omega) (by omega)
      (fun x hx1 hx2 => hall x (by omega) hx2) hfresh

theorem goSuffix_exhausted (base : List Char) (used : List (List Char)) :
    ∀ (d i : Nat), 10000 - i = d →
    (∀ x, i ≤ x → x < 10000 →
      (candidateName base x).map asciiLower ∈ used) →
    goSuffix base used i =
      (fallbackName base,
       (used ++ [(fallbackName base).map asciiLower], true)) := by
  intro d
  induction d with
  | zero =>
    intro i hd _
    rw [goSuffix_eq, if_neg (by omega : ¬ i < 10000)]
  | succ d ih =>
    intro i hd hall
    have hilt : i < 10000 := by omega
    have hmem := hall i le_rfl hilt
    rw [goSuffix_eq, if_pos hilt, if_pos hmem]
    exact ih (i + 1) (by omega) (fun x hx1 hx2 => hall x (by omega) hx2)

theorem buildUnique_exEntry (used : List (List Char)) :
    buildUniqueToolName exServer exTool used =
      if exBase ∈ used then goSuffix exBase used 2
      else (exBase, (used ++ [exBase], false)) := by
  have hbase : ("mcp_".toList ++ normalizeMcpToolNameSegment exServer ++
      '_' :: normalizeMcpToolNameSegment exTool).take 64 = exBase := by decide
  have hlow : exBase.map asciiLower = exBase := by decide
  simp only [buildUniqueToolName]
  rw [hbase, hlow]

theorem buildUnique_exFallback (used : List (List Char))
    (hbase : exBase ∈ used)
    (hall : ∀ x, 2 ≤ x → x < 10000 → exCand x ∈ used) :
    buildUniqueToolName exServer exTool used =
      (exFallback, (used ++ [exFallback], true)) := by
  rw [buildUnique_exEntry, if_pos hbase]
  have hall2 : ∀ x, 2 ≤ x → x < 10000 →
      (candidateName exBase x).map asciiLower ∈ used := by
    intro x hx1 hx2
    rw [candidateName_exBase hx2, exCand_map_lower]
    exact hall x hx1 hx2
  rw [goSuffix_exhausted exBase used (10000 - 2) 2 rfl hall2]
  have hfb : fallbackName exBase = exFallback := by decide
  have hfl : exFallback.map asciiLower = exFallback := by decide
  rw [hfb, hfl]

theorem assignToolNames_cons (e : List Char × List Char)
    (rest : List (List Char × List Char)) (used : List (List Char)) :
    assignToolNames (e :: rest) used =
      ((buildUniqueToolName e.1 e.2 used).1 ::
        (assignToolNames rest (buildUniqueToolName e.1 e.2 used).2.1).1,
       ((assignToolNames rest (buildUniqueToolName e.1 e.2 used).2.1).2.1,
        (buildUniqueToolName e.1 e.2 used).2.2 ||
        (assignToolNames rest
          (buildUniqueToolName e.1 e.2 used).2.1).2.2)) := rfl

theorem exUsed_snoc (j : Nat) :
    exUsed j ++ [exCand (j + 2)] = exUsed (j + 1) := by
  unfold exUsed
  rw [List.cons_append]
  have h : (List.range' 2 j).map exCand ++ [exCand (j + 2)] =
      (List.range' 2 (j + 1)).map exCand := by
    rw [List.range'_concat]
    rw [List.map_append]
    simp only [List.map_cons, List.map_nil]
    have : 2 + 1 * j = j + 2 := by omega
    rw [this]
  rw [h]

theorem exSession_steps : ∀ (k j : Nat), j + k ≤ 9998 →
    assignToolNames (List.replicate k (exServer, exTool)) (exUsed j) =
      ((List.range' (j + 2) k).map exCand, (exUsed (j + k), false)) := by
  intro k
  induction k with
  | zero =>
    intro j _
    simp [assignToolNames]
  | succ k ih =>
    intro j hjk
    rw [List.replicate_succ, assignToolNames_cons]
    have hstep : buildUniqueToolName exServer exTool (exUsed j) =
        (exCand (j + 2), (exUsed (j + 1), false)) := by
      have hmemb : exBase ∈ exUsed j := List.mem_cons_self exBase _
      rw [buildUnique_exEntry, if_pos hmemb]
      have hfind := goSuffix_finds exBase (exUsed j) j 2 (j + 2)
        (by omega) (by omega) (by omega)
        (fun x hx1 hx2 => by
          rw [candidateName_exBase (by omega : x < 10000), exCand_map_lower]
          exact exCand_mem_exUsed.mpr (by omega))
        (by
          rw [candidateName_exBase (by omega : j + 2 < 10000),
            exCand_map_lower]
          intro hmem
          have := exCand_mem_exUsed.mp hmem
          omega)
      rw [hfind, candidateName_exBase (by omega : j + 2 < 10000),
        exCand_map_lower, exUsed_snoc]
    rw [hstep]
    simp only []
    rw [ih (j + 1) (by omega)]
    have hidx : j + 1 + k = j + (k + 1) := by omega
    rw [hidx]
    have hrange : List.range' (j + 2) (k + 1) =
        (j + 2) :: List.range' (j + 3) k := by
      have := List.range'_succ (j + 2) k 1
      simpa using this
    rw [hrange]
    simp

theorem assignToolNames_append : ∀ (l1 l2 : List (List Char × List Char))
    (used : List (List Char)),
    assignToolNames (l1 ++ l2) used =
      ((assignToolNames l1 used).1 ++
        (assignToolNames l2 (assignToolNames l1 used).2.1).1,
       ((assignToolNames l2 (assignToolNames l1 used).2.1).2.1,
        (assignToolNames l1 used).2.2 ||
        (assignToolNames l2 (assignToolNames l1 used).2.1).2.2)) := by
  intro l1
  induction l1 with
  | nil =>
    intro l2 used
    simp [assignToolNames]
  | cons e rest ih =>
    intro l2 used
    rw [List.cons_append, assignToolNames_cons, assignToolNames_cons, ih]
    simp [Bool.or_assoc]

theorem exSession_names :
    (assignToolNames
      (List.replicate 10001 (exServer, exTool)) []).1 =
      exBase :: ((List.range' 2 9998).map exCand ++
        [exFallback, exFallback]) := by
  have hsplit : List.replicate 10001 (exServer, exTool) =
      (exServer, exTool) ::
        (List.replicate 9998 (exServer, exTool) ++
         List.replicate 2 (exServer, exTool)) := by
    rw [← List.replicate_add]
    rfl
  rw [hsplit, assignToolNames_cons]
  have hfirst : buildUniqueToolName exServer exTool [] =
      (exBase, (exUsed 0, false)) := by
    rw [buildUnique_exEntry, if_neg (by simp)]
    rfl
  rw [hfirst]
  simp only []
  rw [assignToolNames_append]
  rw [exSession_steps 9998 0 (by omega)]
  simp only []
  have hlast : (assignToolNames
      (List.replicate 2 (exServer, exTool)) (exUsed 9998)).1 =
      [exFallback, exFallback] := by
    have hcall1 : buildUniqueToolName exServer exTool (exUsed 9998) =
        (exFallback, (exUsed 9998 ++ [exFallback], true)) := by
      apply buildUnique_exFallback
      · exact List.mem_cons_self exBase _
      · intro x hx1 hx2
        exact exCand_mem_exUsed.mpr (by omega)
    have hcall2 : buildUniqueToolName exServer exTool
        (exUsed 9998 ++ [exFallback]) =
        (exFallback, ((exUsed 9998 ++ [exFallback]) ++ [exFallback], true)) := by
      apply buildUnique_exFallback
      · exact List.mem_append_left _ (List.mem_cons_self exBase _)
      · intro x hx1 hx2
        exact List.mem_append_left _ (exCand_mem_exUsed.mpr (by omega))
    show (assignToolNames ((exServer, exTool) :: [(exServer, exTool)])
      (exUsed 9998)).1 = [exFallback, exFallback]
    rw [assignToolNames_cons]
    rw [hcall1]
    simp only []
    rw [assignToolNames_cons]
    rw [hcall2]
    rfl
  rw [hlast]

/-- C5 counterexample.  In the discovery session whose 10001 entries all
come from server "s" declaring tool "t", the suffix search is exhausted
and the last two bridged tools both receive the unchecked fallback name
(the base truncated to 62 characters plus underscore x), so the claimed
pairwise case-insensitive distinctness of assigned names fails. -/
theorem c5_counterexample :
    ¬ ((assignToolNames
        (List.replicate 10001 (exServer, exTool)) []).1.Pairwise
      (fun a b => a.map asciiLower ≠ b.map asciiLower)) := by
  rw [exSession_names]
  intro hp
  have hsub : List.Sublist [exFallback, exFallback]
      (exBase :: ((List.range' 2 9998).map exCand ++
        [exFallback, exFallback])) := by
    apply List.Sublist.cons
    exact List.sublist_append_right _ _
  have hff := hp.sublist hsub
  rw [List.pairwise_cons] at hff
  exact hff.1 exFallback (by simp) rfl

end McpModel
